import Mathlib

/-!
# Verification of the polynomial constant-term solver

Shallow embedding of the `PolynomialSolver` class from `src/polynomial.jsx`
(a module-scope, stateless class; all methods are static and pure), together
with proofs of the specification's claims about it.

Modelling conventions:
* JavaScript `BigInt` is modelled as `Int`.  JS `BigInt` division and
  remainder truncate toward zero, which is `Int.tdiv` / `Int.tmod`;
  JS `BigInt` division by zero throws a `RangeError`, which is modelled by
  an explicit divisor-zero check returning an error (so that "a division by
  zero is attempted" is observable in the model).
* JS exceptions are modelled with `Except String`, carrying the thrown
  message text (quote characters in messages are written with `\x27`).
* The JSON input object of `solve` is modelled by `Input`: the `keys`
  field may be absent (`none`), and `keys.n` / `keys.k` are `Option Int`
  (`none` models absent-or-non-integer, the two cases the code's
  `Number.isInteger` test rejects identically).  The remaining properties
  are the point entries; since JSON object keys are unique, the x-keys of
  an input object are pairwise distinct, which theorems state as a
  `Nodup` hypothesis where needed.
* `Array.prototype.sort` with comparator `(a, b) => a.x - b.x` is a stable
  ascending sort by `x`.  A stable sort's output is uniquely determined by
  the key, so any stable sorting algorithm is the same function on lists;
  the model uses insertion sort (`List.insertionSort`, which is stable) by
  `a.x ≤ b.x`.
* `Array.prototype.slice(0, k)` is `sliceZeroTo` (a negative `k` counts
  from the end, clamped at 0, exactly as in JS).
* `new Set(xs).size` is `xs.dedup.length`.
* The `for (let i = 0; i < k; i++)` accumulation loops are structural
  recursion over the index list `List.range k`, carrying the loop state.
-/

/-- Decidable equality for `Except`, so that concrete runs of the embedded
functions can be checked by `decide`. -/
instance {ε α : Type} [DecidableEq ε] [DecidableEq α] : DecidableEq (Except ε α) :=
  fun x y =>
    match x, y with
    | .ok a, .ok b =>
      if h : a = b then isTrue (by rw [h]) else isFalse (fun hh => h (Except.ok.inj hh))
    | .error e, .error f =>
      if h : e = f then isTrue (by rw [h]) else isFalse (fun hh => h (Except.error.inj hh))
    | .ok _, .error _ => isFalse (fun hh => Except.noConfusion hh)
    | .error _, .ok _ => isFalse (fun hh => Except.noConfusion hh)

namespace PolynomialSolver

/-- Embedding of `PolynomialSolver.getDigitValue` (src/polynomial.jsx:21-33):
maps one character to its digit value via its character code. -/
def getDigitValue (ch : Char) : Except String Nat :=
  let code := ch.toNat
  if 48 ≤ code ∧ code ≤ 57 then .ok (code - 48)
  else if 97 ≤ code ∧ code ≤ 122 then .ok (10 + (code - 97))
  else if 65 ≤ code ∧ code ≤ 90 then .ok (36 + (code - 65))
  else .error ("Unsupported digit character \x27" ++ toString ch ++ "\x27")

/-- The character-by-character accumulation loop of
`PolynomialSolver.convertToDecimalBigInt` (src/polynomial.jsx:46-52):
`res = res * base + digit`, left to right, validating each digit
against the base. -/
def convLoop (base : Int) : List Char → Int → Except String Int
  | [], res => .ok res
  | c :: rest, res =>
    match getDigitValue c with
    | .error e => .error e
    | .ok digit =>
      if (digit : Int) ≥ base then
        .error ("Digit \x27" ++ toString c ++ "\x27 invalid for base " ++ toString base)
      else convLoop base rest (res * base + (digit : Int))

/-- Embedding of `PolynomialSolver.convertToDecimalBigInt`
(src/polynomial.jsx:36-54).  The JS code first coerces `base` with
`Number(base)` (callers pass the base as a string or number; the model
takes the already-coerced integer) and rejects bases outside `2..62`,
then rejects the empty string, then runs the accumulation loop. -/
def convertToDecimalBigInt (value : String) (base : Int) : Except String Int :=
  if ¬(2 ≤ base ∧ base ≤ 62) then
    .error ("Base must be integer in range 2..62 (got " ++ toString base ++ ")")
  else if value.length = 0 then
    .error "Empty value string"
  else
    convLoop base value.data 0

/-- Embedding of `PolynomialSolver.gcdBig` (src/polynomial.jsx:56-65):
absolute values are taken first, then the Euclidean
`while (b !== 0n) { r = a % b; a = b; b = r }` loop runs and the final
`a` is returned.  The loop satisfies the recurrence
`loop a b = if b = 0 then a else loop b (a % b)`, which is exactly
`Nat.gcd b a` (see `gcdBig_loop_step`); in particular both give `0` on
`(0, 0)`. -/
def gcdBig (a b : Int) : Int := (Nat.gcd b.natAbs a.natAbs : Int)

/-- The embedded Euclidean loop satisfies the source loop's recurrence:
return `a` when `b = 0`, otherwise continue with `(b, a % b)`. -/
theorem gcdBig_loop_step (a b : Nat) :
    Nat.gcd b a = if b = 0 then a else Nat.gcd (a % b) b := by
  cases b with
  | zero => simp
  | succ n => rw [if_neg (Nat.succ_ne_zero n), Nat.gcd_succ]

/-- A decoded sample point `{ x, y }` (x the declared index, y the decoded
BigInt value). -/
structure Point where
  x : Int
  y : Int
deriving DecidableEq, Repr

/-- One iteration's tail of the outer loops of `findConstantTerm`
(src/polynomial.jsx:95-102) and `evaluateAt` (src/polynomial.jsx:133-139):
`sum + term = (sumNum*termDen + termNum*sumDen) / (sumDen*termDen)`,
followed by reduction of both parts by their gcd.  JS `BigInt` division
by zero throws `RangeError`, hence the explicit guard on `g`. -/
def reduceAdd (sumNum sumDen termNum termDen : Int) : Except String (Int × Int) :=
  let newNum := sumNum * termDen + termNum * sumDen
  let newDen := sumDen * termDen
  let g := gcdBig newNum newDen
  if g = 0 then .error "RangeError: Division by zero"
  else .ok (newNum.tdiv g, newDen.tdiv g)

/-- The inner `for (j …) if (i === j) continue` loop of both evaluators
(src/polynomial.jsx:84-89 and 126-131): starting from `termNum = yi`,
`termDen = 1n`, multiply `termNum` by `(x0 - xj)` and `termDen` by
`(xi - xj)` for every point other than the `i`-th, in order
(`others = points.eraseIdx i`).  In `findConstantTerm` the source writes
`termNum *= -xj`, which is the `x0 = 0` instance of `x0 - xj`. -/
def termLoop (x0 xi yi : Int) (others : List Point) : Int × Int :=
  others.foldl (fun t p => (t.1 * (x0 - p.x), t.2 * (xi - p.x))) (yi, 1)

/-- The outer `for (i = 0; i < k; i++)` loop shared by `findConstantTerm`
(src/polynomial.jsx:76-103) and `evaluateAt` (src/polynomial.jsx:120-140),
over the list of remaining indices, carrying the running
`(sumNum, sumDen)` state: build the `i`-th term, throw `dupMsg` when its
denominator is zero, fold it into the running sum with gcd reduction,
continue. -/
def sumLoop (x0 : Int) (pts : List Point) (dupMsg : String) :
    List Nat → Int × Int → Except String (Int × Int)
  | [], st => .ok st
  | i :: rest, st =>
    let p := pts.getD i ⟨0, 0⟩
    let t := termLoop x0 p.x p.y (pts.eraseIdx i)
    if t.2 = 0 then .error dupMsg
    else match reduceAdd st.1 st.2 t.1 t.2 with
      | .error e => .error e
      | .ok st2 => sumLoop x0 pts dupMsg rest st2

/-- Embedding of `PolynomialSolver.findConstantTerm`
(src/polynomial.jsx:68-110): guard against the empty list, run the
accumulation loop at target 0 over indices `0 … k-1`, then the final
denominator-zero and integrality checks. -/
def findConstantTerm (points : List Point) : Except String Int :=
  if points.length = 0 then .error "No points provided for interpolation"
  else match sumLoop 0 points
      "Duplicate x values encountered (denominator zero)"
      (List.range points.length) (0, 1) with
    | .error e => .error e
    | .ok (sumNum, sumDen) =>
      if sumDen = 0 then .error "Internal math error: final denominator zero"
      else if sumNum.tmod sumDen ≠ 0 then
        .error ("Constant term is not an integer: " ++ toString sumNum
          ++ " / " ++ toString sumDen)
      else .ok (sumNum.tdiv sumDen)

/-- Embedding of `PolynomialSolver.evaluateAt` (src/polynomial.jsx:113-145):
returns `0n` on the empty list, otherwise runs the accumulation loop at
target `x0` and the final checks. -/
def evaluateAt (x0 : Int) (points : List Point) : Except String Int :=
  if points.length = 0 then .ok 0
  else match sumLoop x0 points "Duplicate x values encountered"
      (List.range points.length) (0, 1) with
    | .error e => .error e
    | .ok (sumNum, sumDen) =>
      if sumDen = 0 then .error "Internal math error: denominator zero"
      else if sumNum.tmod sumDen ≠ 0 then
        .error ("Non-integer evaluation at x=" ++ toString x0)
      else .ok (sumNum.tdiv sumDen)

/-- Embedding of `PolynomialSolver.verifyAllPoints` (src/polynomial.jsx:147-153):
evaluate the selected-subset polynomial at every provided point's x and
report the first mismatch (exceptions from `evaluateAt` propagate). -/
def verifyAllPoints (selectedPoints : List Point) : List Point → Except String Bool
  | [] => .ok true
  | p :: rest =>
    match evaluateAt p.x selectedPoints with
    | .error e => .error e
    | .ok val =>
      if val = p.y then verifyAllPoints selectedPoints rest else .ok false

/-- The in-place `points.sort((a, b) => a.x - b.x)` of `solve`
(src/polynomial.jsx:180): a stable ascending sort by `x`, modelled by
(stable) insertion sort. -/
def sortByX (points : List Point) : List Point :=
  points.insertionSort (fun a b => a.x ≤ b.x)

/-- JS `Array.prototype.slice(0, k)` on a list: a negative end index counts
from the end of the array (clamped at 0), as in `points.slice(0, k)`
(src/polynomial.jsx:181). -/
def sliceZeroTo (l : List Point) (k : Int) : List Point :=
  l.take (if k < 0 then ((l.length : Int) + k).toNat else k.toNat)

/-- The result object of `solve` (src/polynomial.jsx:194). -/
structure SolveResult where
  constantTerm : Int
  selectedPoints : List Point
  allPoints : List Point
deriving DecidableEq, Repr

/-- The point-level tail of `PolynomialSolver.solve`
(src/polynomial.jsx:177-194), after parsing and decoding: length check
against `k`, in-place stable sort by `x` ascending (the later
`verifyAllPoints` call therefore sees the sorted array), selection of the
first `k` points, duplicate-x check on the selected points via a `Set`,
interpolation, and verification. -/
def solvePoints (k : Int) (points : List Point) : Except String SolveResult :=
  if (points.length : Int) < k then
    .error ("Need at least k=" ++ toString k ++ " points, got "
      ++ toString points.length)
  else
    let sorted := sortByX points
    let selected := sliceZeroTo sorted k
    if (selected.map Point.x).dedup.length ≠ selected.length then
      .error "Duplicate x-values found in selected points"
    else match findConstantTerm selected with
      | .error e => .error e
      | .ok constantTerm =>
        match verifyAllPoints selected sorted with
        | .error e => .error e
        | .ok ok =>
          if !ok then
            .error "Polynomial determined from selected points does not match all provided points"
          else .ok ⟨constantTerm, selected, sorted⟩

/-- The `keys` object of the input JSON: `n` and `k`, each `none` when the
field is absent or not an integer (the two cases `Number.isInteger`
rejects). -/
structure KeysObj where
  n : Option Int
  k : Option Int
deriving DecidableEq, Repr

/-- One point property of the input JSON: integer x-key, base, and digit
string. -/
structure Entry where
  x : Int
  base : Int
  value : String
deriving DecidableEq, Repr

/-- The input JSON object of `solve`: an optional `keys` object plus the
point entries (JSON object keys are unique, so the `x` of distinct
entries differ in any real input). -/
structure Input where
  keys : Option KeysObj
  entries : List Entry
deriving DecidableEq, Repr

/-- The decoding loop of `solve` (src/polynomial.jsx:163-175): convert each
entry's value string in its base and pair it with the integer x-key; the
first decoding error aborts. -/
def decodePoints : List Entry → Except String (List Point)
  | [] => .ok []
  | e :: rest =>
    match convertToDecimalBigInt e.value e.base with
    | .error err => .error err
    | .ok y =>
      match decodePoints rest with
      | .error err => .error err
      | .ok ps => .ok ({ x := e.x, y := y } :: ps)

/-- Embedding of `PolynomialSolver.solve` (src/polynomial.jsx:157-195):
reject a missing `keys` object, reject absent/non-integer `keys.n` or
`keys.k` (no positivity check is performed), decode all points, then run
the point-level pipeline `solvePoints`. -/
def solve (input : Input) : Except String SolveResult :=
  match input.keys with
  | none => .error "Invalid input JSON: missing keys"
  | some keys =>
    match keys.n, keys.k with
    | some _, some k =>
      match decodePoints input.entries with
      | .error e => .error e
      | .ok points => solvePoints k points
    | _, _ => .error "keys.n and keys.k must be integers"

/-- Instrumented replay of the outer accumulation loop (built from the same
`termLoop` and `reduceAdd` steps as `sumLoop`): the list of
`(sumNum, sumDen)` states after each gcd-reduction step, stopping where
the loop would throw. -/
def reduceTraceLoop (x0 : Int) (pts : List Point) :
    List Nat → Int × Int → List (Int × Int)
  | [], _ => []
  | i :: rest, st =>
    let p := pts.getD i ⟨0, 0⟩
    let t := termLoop x0 p.x p.y (pts.eraseIdx i)
    if t.2 = 0 then []
    else match reduceAdd st.1 st.2 t.1 t.2 with
      | .error _ => []
      | .ok st2 => st2 :: reduceTraceLoop x0 pts rest st2

/-- The running-fraction states of `findConstantTerm points` after each
reduction step. -/
def findConstantTermTrace (points : List Point) : List (Int × Int) :=
  reduceTraceLoop 0 points (List.range points.length) (0, 1)

/-- The running-fraction states of `evaluateAt x0 points` after each
reduction step. -/
def evaluateAtTrace (x0 : Int) (points : List Point) : List (Int × Int) :=
  reduceTraceLoop x0 points (List.range points.length) (0, 1)

/-! ## Basic arithmetic lemmas about the embedded helpers -/

theorem gcdBig_eq (a b : Int) : gcdBig a b = (Int.gcd a b : Int) := by
  show (Nat.gcd b.natAbs a.natAbs : Int) = (Nat.gcd a.natAbs b.natAbs : Int)
  rw [Nat.gcd_comm]

theorem gcdBig_dvd_left (a b : Int) : gcdBig a b ∣ a := by
  rw [gcdBig_eq]; exact Int.gcd_dvd_left

theorem gcdBig_dvd_right (a b : Int) : gcdBig a b ∣ b := by
  rw [gcdBig_eq]; exact Int.gcd_dvd_right

theorem gcdBig_eq_zero_iff {a b : Int} : gcdBig a b = 0 ↔ a = 0 ∧ b = 0 := by
  rw [gcdBig_eq]
  constructor
  · intro h
    exact Int.gcd_eq_zero_iff.mp (Int.natCast_eq_zero.mp h)
  · intro h
    rw [Int.gcd_eq_zero_iff.mpr h]
    rfl

/-- The gcd-reduction step: with nonzero running and term denominators it
never divides by zero, and it produces a reduced fraction with nonzero
denominator whose rational value is the sum of the two input fractions. -/
theorem reduceAdd_ok {sN sD tN tD : Int} (hsD : sD ≠ 0) (htD : tD ≠ 0) :
    ∃ rN rD : Int, reduceAdd sN sD tN tD = .ok (rN, rD) ∧ rD ≠ 0 ∧
      Int.gcd rN rD = 1 ∧
      ((rN : ℚ) / (rD : ℚ) = (sN : ℚ) / (sD : ℚ) + (tN : ℚ) / (tD : ℚ)) := by
  have hden : sD * tD ≠ 0 := mul_ne_zero hsD htD
  have hshape : reduceAdd sN sD tN tD
      = (if gcdBig (sN * tD + tN * sD) (sD * tD) = 0 then
          (Except.error "RangeError: Division by zero" : Except String (Int × Int))
        else Except.ok
          ((sN * tD + tN * sD).tdiv (gcdBig (sN * tD + tN * sD) (sD * tD)),
           (sD * tD).tdiv (gcdBig (sN * tD + tN * sD) (sD * tD)))) := rfl
  have hgabs : (gcdBig (sN * tD + tN * sD) (sD * tD)).natAbs
      = Int.gcd (sN * tD + tN * sD) (sD * tD) := by
    rw [gcdBig_eq, Int.natAbs_ofNat]
  have hg : gcdBig (sN * tD + tN * sD) (sD * tD) ≠ 0 := by
    intro h
    exact hden (gcdBig_eq_zero_iff.mp h).2
  obtain ⟨n1, hn1⟩ := gcdBig_dvd_left (sN * tD + tN * sD) (sD * tD)
  obtain ⟨d1, hd1⟩ := gcdBig_dvd_right (sN * tD + tN * sD) (sD * tD)
  rw [hshape, if_neg hg]
  generalize hGG : gcdBig (sN * tD + tN * sD) (sD * tD) = g at hg hn1 hd1 hgabs ⊢
  have hd1ne : d1 ≠ 0 := by
    intro h
    rw [h, mul_zero] at hd1
    exact hden hd1
  have hgQ : (g : ℚ) ≠ 0 := Int.cast_ne_zero.mpr hg
  refine ⟨n1, d1, ?_, hd1ne, ?_, ?_⟩
  · rw [hn1, hd1, Int.mul_tdiv_cancel_left _ hg, Int.mul_tdiv_cancel_left _ hg]
  · have hGmul : Int.gcd (g * n1) (g * d1) = g.natAbs * Int.gcd n1 d1 :=
      Int.gcd_mul_left g n1 d1
    rw [hn1, hd1, hGmul] at hgabs
    have hGpos : g.natAbs ≠ 0 := fun h => hg (Int.natAbs_eq_zero.mp h)
    have h1 : g.natAbs * Int.gcd n1 d1 = g.natAbs * 1 := by
      rw [mul_one]; exact hgabs.symm
    exact Nat.eq_of_mul_eq_mul_left (Nat.pos_of_ne_zero hGpos) h1
  · have hcast : ((n1 : ℚ) / (d1 : ℚ))
        = ((sN * tD + tN * sD : ℤ) : ℚ) / ((sD * tD : ℤ) : ℚ) := by
      rw [hn1, hd1]
      push_cast
      rw [mul_div_mul_left _ _ hgQ]
    rw [hcast]
    have hsDQ : (sD : ℚ) ≠ 0 := Int.cast_ne_zero.mpr hsD
    have htDQ : (tD : ℚ) ≠ 0 := Int.cast_ne_zero.mpr htD
    push_cast
    field_simp

/-- Value of the inner term-product loop: starting from `(yi, 1)`, it
computes `yi` times the product of the `x0 - xj` and the product of the
`xi - xj`. -/
theorem termLoop_aux (x0 xi : Int) (l : List Point) (a b : Int) :
    l.foldl (fun t p => (t.1 * (x0 - p.x), t.2 * (xi - p.x))) (a, b)
      = (a * (l.map (fun p => x0 - p.x)).prod, b * (l.map (fun p => xi - p.x)).prod) := by
  induction l generalizing a b with
  | nil => simp
  | cons p rest ih =>
    rw [List.foldl_cons, ih]
    simp only [List.map_cons, List.prod_cons]
    rw [mul_assoc, mul_assoc]

theorem termLoop_eq (x0 xi yi : Int) (others : List Point) :
    termLoop x0 xi yi others
      = (yi * (others.map (fun p => x0 - p.x)).prod,
         (others.map (fun p => xi - p.x)).prod) := by
  unfold termLoop
  rw [termLoop_aux]
  simp

/-! ## Bridging list products over `eraseIdx` with `Finset` products -/

theorem prod_map_eraseIdx_aux {α : Type} {M : Type} [CommMonoid M] (l : List α) :
    ∀ (i : Nat) (hi : i < l.length) (g : α → M),
    ((l.eraseIdx i).map g).prod
      = (List.ofFn (fun j : Fin l.length =>
          if j = (⟨i, hi⟩ : Fin l.length) then 1 else g (l.get j))).prod := by
  induction l with
  | nil => intro i hi g; simp at hi
  | cons p rest ih =>
    intro i hi g
    cases i with
    | zero =>
      rw [show (p :: rest).eraseIdx 0 = rest from rfl]
      rw [List.ofFn_succ, List.prod_cons]
      simp only [Fin.ext_iff, Fin.val_zero, Fin.val_succ]
      rw [if_pos trivial, one_mul]
      have hfun : (fun j : Fin rest.length =>
            if (j.val + 1 = 0) then (1 : M) else g ((p :: rest).get j.succ))
          = fun j : Fin rest.length => g (rest.get j) := by
        funext j
        rw [if_neg (Nat.succ_ne_zero j.val)]
        rfl
      rw [hfun]
      have hres : List.ofFn (fun j : Fin rest.length => g (rest.get j)) = rest.map g := by
        have h1 : rest.map g = (List.ofFn rest.get).map g := by rw [List.ofFn_get]
        rw [h1, List.map_ofFn]
        rfl
      rw [hres]
    | succ i =>
      have hi' : i < rest.length := Nat.lt_of_succ_lt_succ hi
      rw [show (p :: rest).eraseIdx (i + 1) = p :: rest.eraseIdx i from rfl]
      rw [List.map_cons, List.prod_cons, ih i hi' g]
      rw [List.ofFn_succ, List.prod_cons]
      simp only [Fin.ext_iff, Fin.val_zero, Fin.val_succ]
      rw [if_neg (fun h => Nat.succ_ne_zero i h.symm)]
      have hfun : (fun j : Fin rest.length =>
            if (j.val = i) then (1 : M) else g (rest.get j))
          = fun j : Fin rest.length =>
              if (j.val + 1 = i + 1) then (1 : M) else g ((p :: rest).get j.succ) := by
        funext j
        exact if_congr (by omega) rfl rfl
      rw [← hfun]
      congr 1

theorem prod_map_eraseIdx {α : Type} {M : Type} [CommMonoid M] (l : List α)
    (i : Nat) (hi : i < l.length) (g : α → M) :
    ((l.eraseIdx i).map g).prod
      = ∏ j ∈ (Finset.univ : Finset (Fin l.length)).erase ⟨i, hi⟩, g (l.get j) := by
  rw [prod_map_eraseIdx_aux l i hi g, List.ofFn_eq_map, ← Fin.prod_univ_def]
  have h1 : (if (⟨i, hi⟩ : Fin l.length) = ⟨i, hi⟩ then (1 : M)
      else g (l.get ⟨i, hi⟩)) = 1 := if_pos rfl
  rw [← Finset.prod_erase (Finset.univ : Finset (Fin l.length)) h1]
  refine Finset.prod_congr rfl fun j hj => ?_
  rw [if_neg (Finset.ne_of_mem_erase hj)]

/-- Casting an integer product of differences into `ℚ`. -/
theorem cast_prod_sub (c : Int) (l : List Point) :
    (((l.map (fun p => c - p.x)).prod : ℤ) : ℚ)
      = (l.map (fun p => (c : ℚ) - (p.x : ℚ))).prod := by
  rw [show ((((l.map (fun p => c - p.x)).prod : ℤ) : ℚ))
      = (Int.castRingHom ℚ) (l.map (fun p => c - p.x)).prod from rfl]
  rw [map_list_prod, List.map_map]
  congr 1
  apply List.map_congr_left
  intro p _
  simp

/-! ## The exact rational value computed by the accumulation loop

`lagTerm x0 pts i` is the `i`-th Lagrange term
`y_i · Π_{j≠i} (x0 − x_j) / Π_{j≠i} (x_i − x_j)` as a rational number, and
`lagSum` their sum — the mathematical value the loops accumulate. -/

def nodeX (pts : List Point) (j : Fin pts.length) : ℚ := ((pts.get j).x : ℚ)

def nodeY (pts : List Point) (j : Fin pts.length) : ℚ := ((pts.get j).y : ℚ)

def lagTermNum (x0 : ℚ) (pts : List Point) (i : Fin pts.length) : ℚ :=
  ∏ j ∈ Finset.univ.erase i, (x0 - nodeX pts j)

def lagTermDen (pts : List Point) (i : Fin pts.length) : ℚ :=
  ∏ j ∈ Finset.univ.erase i, (nodeX pts i - nodeX pts j)

def lagTerm (x0 : ℚ) (pts : List Point) (i : Fin pts.length) : ℚ :=
  nodeY pts i * lagTermNum x0 pts i / lagTermDen pts i

def lagSum (x0 : ℚ) (pts : List Point) : ℚ :=
  ∑ i : Fin pts.length, lagTerm x0 pts i

def lagTermNat (x0 : ℚ) (pts : List Point) (t : Nat) : ℚ :=
  if h : t < pts.length then lagTerm x0 pts ⟨t, h⟩ else 0

def lagSumUpto (x0 : ℚ) (pts : List Point) (m : Nat) : ℚ :=
  ∑ t ∈ Finset.range m, lagTermNat x0 pts t

theorem lagSumUpto_succ (x0 : ℚ) (pts : List Point) (i : Nat) (hi : i < pts.length) :
    lagSumUpto x0 pts (i + 1) = lagSumUpto x0 pts i + lagTerm x0 pts ⟨i, hi⟩ := by
  unfold lagSumUpto
  rw [Finset.sum_range_succ]
  congr 1
  unfold lagTermNat
  rw [dif_pos hi]

theorem lagSumUpto_eq_lagSum (x0 : ℚ) (pts : List Point) (m : Nat)
    (hm : pts.length ≤ m) : lagSumUpto x0 pts m = lagSum x0 pts := by
  unfold lagSumUpto lagSum
  have h1 : ∑ t ∈ Finset.range m, lagTermNat x0 pts t
      = ∑ t ∈ Finset.range pts.length, lagTermNat x0 pts t := by
    refine (Finset.sum_subset (Finset.range_subset.mpr hm) ?_).symm
    intro t _ ht
    unfold lagTermNat
    rw [dif_neg (by simpa using ht)]
  rw [h1, ← Fin.sum_univ_eq_sum_range (lagTermNat x0 pts) pts.length]
  refine Finset.sum_congr rfl fun i _ => ?_
  unfold lagTermNat
  rw [dif_pos i.isLt]

/-- Distinct x-values make the node map injective. -/
theorem nodeX_injective {pts : List Point} (hx : (pts.map Point.x).Nodup) :
    Function.Injective (nodeX pts) := by
  intro i j h
  have hxx : (pts.get i).x = (pts.get j).x := by
    have := Int.cast_injective (α := ℚ) h
    exact this
  have hinj := List.nodup_iff_injective_get.mp hx
  have hlen : (pts.map Point.x).length = pts.length := List.length_map _ _
  have hgi : (pts.map Point.x).get ⟨i.val, by rw [hlen]; exact i.isLt⟩ = (pts.get i).x := by
    simp [List.get_eq_getElem]
  have hgj : (pts.map Point.x).get ⟨j.val, by rw [hlen]; exact j.isLt⟩ = (pts.get j).x := by
    simp [List.get_eq_getElem]
  have := hinj (hgi.trans (hxx.trans hgj.symm))
  have hval := congrArg Fin.val this
  exact Fin.ext hval

/-- With distinct x-values no term denominator vanishes. -/
theorem lagTermDen_ne_zero {pts : List Point} (hx : (pts.map Point.x).Nodup)
    (i : Fin pts.length) : lagTermDen pts i ≠ 0 := by
  unfold lagTermDen
  rw [Finset.prod_ne_zero_iff]
  intro j hj
  have hji : j ≠ i := Finset.ne_of_mem_erase hj
  exact sub_ne_zero_of_ne fun h => hji (nodeX_injective hx h).symm

/-- The two components of the inner loop's result, as rationals. -/
theorem termLoop_fst_cast (x0 : Int) (pts : List Point) (i : Nat) (hi : i < pts.length) :
    (((termLoop x0 (pts.getD i ⟨0, 0⟩).x (pts.getD i ⟨0, 0⟩).y (pts.eraseIdx i)).1 : ℤ) : ℚ)
      = nodeY pts ⟨i, hi⟩ * lagTermNum (x0 : ℚ) pts ⟨i, hi⟩ := by
  rw [termLoop_eq]
  show (((pts.getD i ⟨0, 0⟩).y
      * ((pts.eraseIdx i).map (fun p => x0 - p.x)).prod : ℤ) : ℚ) = _
  rw [Int.cast_mul, cast_prod_sub x0 (pts.eraseIdx i),
    prod_map_eraseIdx pts i hi (fun p => (x0 : ℚ) - (p.x : ℚ))]
  have hD : (pts.getD i ⟨0, 0⟩).y = (pts.get ⟨i, hi⟩).y := by
    rw [List.getD_eq_getElem _ _ hi, List.get_eq_getElem]
  rw [hD]
  rfl

theorem termLoop_snd_cast (x0 : Int) (pts : List Point) (i : Nat) (hi : i < pts.length) :
    (((termLoop x0 (pts.getD i ⟨0, 0⟩).x (pts.getD i ⟨0, 0⟩).y (pts.eraseIdx i)).2 : ℤ) : ℚ)
      = lagTermDen pts ⟨i, hi⟩ := by
  rw [termLoop_eq]
  show ((((pts.eraseIdx i).map
      (fun p => (pts.getD i ⟨0, 0⟩).x - p.x)).prod : ℤ) : ℚ) = _
  have hD : (pts.getD i ⟨0, 0⟩).x = (pts.get ⟨i, hi⟩).x := by
    rw [List.getD_eq_getElem _ _ hi, List.get_eq_getElem]
  rw [hD]
  rw [cast_prod_sub (pts.get ⟨i, hi⟩).x (pts.eraseIdx i),
    prod_map_eraseIdx pts i hi (fun p => ((pts.get ⟨i, hi⟩).x : ℚ) - (p.x : ℚ))]
  rfl

/-- Main loop invariant: with pairwise-distinct x-values the accumulation
loop over indices `i, i+1, …, i+m-1` succeeds, keeps the running
denominator nonzero, and computes exactly the partial Lagrange sums. -/
theorem sumLoop_ok (x0 : Int) (pts : List Point) (msg : String)
    (hx : (pts.map Point.x).Nodup) :
    ∀ (m i : Nat) (sN sD : Int), i + m ≤ pts.length → sD ≠ 0 →
      (sN : ℚ) / (sD : ℚ) = lagSumUpto (x0 : ℚ) pts i →
      ∃ rN rD : Int, sumLoop x0 pts msg (List.range' i m) (sN, sD) = .ok (rN, rD) ∧
        rD ≠ 0 ∧ (rN : ℚ) / (rD : ℚ) = lagSumUpto (x0 : ℚ) pts (i + m) := by
  intro m
  induction m with
  | zero =>
    intro i sN sD _ hsD hval
    exact ⟨sN, sD, rfl, hsD, by rw [Nat.add_zero]; exact hval⟩
  | succ m ih =>
    intro i sN sD hle hsD hval
    have hi : i < pts.length := by omega
    rw [show List.range' i (m + 1) = i :: List.range' (i + 1) m from rfl]
    simp only [sumLoop]
    have htD : (termLoop x0 (pts.getD i ⟨0, 0⟩).x (pts.getD i ⟨0, 0⟩).y
        (pts.eraseIdx i)).2 ≠ 0 := by
      intro h
      have := termLoop_snd_cast x0 pts i hi
      rw [h] at this
      exact lagTermDen_ne_zero hx ⟨i, hi⟩ (by rw [← this]; norm_num)
    rw [if_neg htD]
    obtain ⟨n1, d1, hred, hd1, _hgcd, hval1⟩ :=
      @reduceAdd_ok sN sD
        (termLoop x0 (pts.getD i ⟨0, 0⟩).x (pts.getD i ⟨0, 0⟩).y (pts.eraseIdx i)).1
        (termLoop x0 (pts.getD i ⟨0, 0⟩).x (pts.getD i ⟨0, 0⟩).y (pts.eraseIdx i)).2
        hsD htD
    rw [hred]
    have hnewval : (n1 : ℚ) / (d1 : ℚ) = lagSumUpto (x0 : ℚ) pts (i + 1) := by
      rw [hval1, hval, lagSumUpto_succ (x0 : ℚ) pts i hi]
      congr 1
      rw [termLoop_fst_cast x0 pts i hi, termLoop_snd_cast x0 pts i hi]
      rfl
    obtain ⟨rN, rD, hrec, hrD, hrval⟩ := ih (i + 1) n1 d1 (by omega) hd1 hnewval
    refine ⟨rN, rD, hrec, hrD, ?_⟩
    rw [show i + (m + 1) = (i + 1) + m by omega]
    exact hrval

/-! ## Case analysis of the accumulation loop without assumptions -/

/-- Whatever the points, the loop either succeeds with a nonzero running
denominator or throws exactly the duplicate-x message — never the
division-by-zero `RangeError`. -/
theorem sumLoop_cases (x0 : Int) (pts : List Point) (msg : String) :
    ∀ (idxs : List Nat) (sN sD : Int), sD ≠ 0 →
      (∃ rN rD : Int, sumLoop x0 pts msg idxs (sN, sD) = .ok (rN, rD) ∧ rD ≠ 0) ∨
        sumLoop x0 pts msg idxs (sN, sD) = .error msg := by
  intro idxs
  induction idxs with
  | nil => intro sN sD hsD; exact .inl ⟨sN, sD, rfl, hsD⟩
  | cons i rest ih =>
    intro sN sD hsD
    simp only [sumLoop]
    by_cases htD : (termLoop x0 (pts.getD i ⟨0, 0⟩).x (pts.getD i ⟨0, 0⟩).y
        (pts.eraseIdx i)).2 = 0
    · rw [if_pos htD]
      exact .inr rfl
    · rw [if_neg htD]
      obtain ⟨n1, d1, hred, hd1, _, _⟩ := @reduceAdd_ok sN sD _ _ hsD htD
      rw [hred]
      exact ih n1 d1 hd1

/-- If some index in the remaining list has a vanishing term denominator,
the loop throws the duplicate-x message. -/
theorem sumLoop_dup (x0 : Int) (pts : List Point) (msg : String) :
    ∀ (idxs : List Nat) (sN sD : Int), sD ≠ 0 →
      (∃ a ∈ idxs, (termLoop x0 (pts.getD a ⟨0, 0⟩).x (pts.getD a ⟨0, 0⟩).y
          (pts.eraseIdx a)).2 = 0) →
      sumLoop x0 pts msg idxs (sN, sD) = .error msg := by
  intro idxs
  induction idxs with
  | nil =>
    intro sN sD _ h
    obtain ⟨a, ha, _⟩ := h
    exact absurd ha (List.not_mem_nil a)
  | cons i rest ih =>
    intro sN sD hsD h
    obtain ⟨a, ha, hz⟩ := h
    simp only [sumLoop]
    by_cases htD : (termLoop x0 (pts.getD i ⟨0, 0⟩).x (pts.getD i ⟨0, 0⟩).y
        (pts.eraseIdx i)).2 = 0
    · rw [if_pos htD]
    · rw [if_neg htD]
      have harest : a ∈ rest := by
        rcases List.mem_cons.mp ha with h1 | h1
        · exact absurd (h1 ▸ hz) htD
        · exact h1
      obtain ⟨n1, d1, hred, hd1, _, _⟩ := @reduceAdd_ok sN sD _ _ hsD htD
      rw [hred]
      exact ih n1 d1 hd1 ⟨a, harest, hz⟩

/-- A duplicate x-value yields an index whose term denominator is zero. -/
theorem exists_zero_termDen (x0 : Int) {pts : List Point}
    (h : ¬ (pts.map Point.x).Nodup) :
    ∃ a, a < pts.length ∧ (termLoop x0 (pts.getD a ⟨0, 0⟩).x (pts.getD a ⟨0, 0⟩).y
        (pts.eraseIdx a)).2 = 0 := by
  have hninj : ¬ Function.Injective (pts.map Point.x).get := fun hc =>
    h (List.nodup_iff_injective_get.mpr hc)
  rw [Function.not_injective_iff] at hninj
  obtain ⟨i, j, hget, hij⟩ := hninj
  have hlen : (pts.map Point.x).length = pts.length := List.length_map _ _
  refine ⟨i.val, by rw [← hlen]; exact i.isLt, ?_⟩
  have hi : i.val < pts.length := by rw [← hlen]; exact i.isLt
  have hj : j.val < pts.length := by rw [← hlen]; exact j.isLt
  have hxx : (pts.get ⟨i.val, hi⟩).x = (pts.get ⟨j.val, hj⟩).x := by
    have hgi : (pts.map Point.x).get i = (pts.get ⟨i.val, hi⟩).x := by
      simp [List.get_eq_getElem]
    have hgj : (pts.map Point.x).get j = (pts.get ⟨j.val, hj⟩).x := by
      simp [List.get_eq_getElem]
    rw [← hgi, ← hgj, hget]
  have hQ : (((termLoop x0 (pts.getD i.val ⟨0, 0⟩).x (pts.getD i.val ⟨0, 0⟩).y
      (pts.eraseIdx i.val)).2 : ℤ) : ℚ) = 0 := by
    rw [termLoop_snd_cast x0 pts i.val hi]
    unfold lagTermDen
    refine Finset.prod_eq_zero (i := ⟨j.val, hj⟩) ?_ ?_
    · rw [Finset.mem_erase]
      refine ⟨?_, Finset.mem_univ _⟩
      intro hc
      exact hij (Fin.ext (congrArg Fin.val hc).symm)
    · unfold nodeX
      rw [hxx]
      ring
  exact Int.cast_eq_zero.mp hQ

/-! ## String-head inequalities for distinguishing error messages -/

theorem string_ne_of_head {s t : String} {c d : Char} {cs ds : List Char}
    (hs : s.data = c :: cs) (ht : t.data = d :: ds) (hcd : c ≠ d) : s ≠ t := by
  intro h
  rw [h, ht] at hs
  injection hs with h1 _
  exact hcd h1.symm

theorem append_head_data (A : String) (c : Char) (tl : List Char)
    (h : A.data = c :: tl) (s : String) : (A ++ s).data = c :: (tl ++ s.data) := by
  rw [String.data_append, h, List.cons_append]

/-! ## The final integrality checks shared by both evaluators -/

theorem final_checks_ok {rN rD : Int} (hrD : rD ≠ 0) {m : ℤ} (hZ : rN = m * rD)
    (e1 e2 : String) :
    (if rD = 0 then (Except.error e1 : Except String Int)
     else if rN.tmod rD ≠ 0 then .error e2 else .ok (rN.tdiv rD)) = .ok m := by
  rw [if_neg hrD]
  subst hZ
  rw [if_neg (show ¬((m * rD).tmod rD ≠ 0) from fun h => h (Int.mul_tmod_left m rD))]
  rw [Int.mul_tdiv_cancel _ hrD]

theorem lagSum_nil (x0 : ℚ) : lagSum x0 [] = 0 :=
  Finset.sum_eq_zero fun i _ => (Nat.not_lt_zero _ i.isLt).elim

theorem final_checks_val {rN rD : Int} (hrD : rD ≠ 0) {z : ℤ} (e1 e2 : String)
    (h : (if rD = 0 then (Except.error e1 : Except String Int)
          else if rN.tmod rD ≠ 0 then .error e2 else .ok (rN.tdiv rD)) = .ok z) :
    rN = z * rD := by
  rw [if_neg hrD] at h
  by_cases hmod : rN.tmod rD ≠ 0
  · rw [if_pos hmod] at h
    exact absurd h (fun hh => Except.noConfusion hh)
  · rw [if_neg hmod] at h
    push_neg at hmod
    obtain ⟨c, hc⟩ := Int.dvd_of_tmod_eq_zero hmod
    have hz : z = c := by
      have h2 := Except.ok.inj h
      rw [hc, Int.mul_tdiv_cancel_left _ hrD] at h2
      exact h2.symm
    rw [hz, hc]
    ring

/-! ## Main evaluator lemmas -/

/-- With distinct x-values and the Lagrange sum at 0 equal to an integer
`m`, `findConstantTerm` succeeds and returns `m`. -/
theorem findConstantTerm_ok_of_int {pts : List Point}
    (hx : (pts.map Point.x).Nodup) (hne : ¬ pts.length = 0) {m : ℤ}
    (hsum : lagSum ((0 : ℤ) : ℚ) pts = (m : ℚ)) :
    findConstantTerm pts = .ok m := by
  obtain ⟨rN, rD, hloop, hrD, hval⟩ :=
    sumLoop_ok 0 pts "Duplicate x values encountered (denominator zero)" hx
      pts.length 0 0 1 (by omega) one_ne_zero (by simp [lagSumUpto])
  rw [Nat.zero_add, lagSumUpto_eq_lagSum _ _ _ (le_refl _)] at hval
  have hZ : rN = m * rD := by
    have hrDQ : (rD : ℚ) ≠ 0 := Int.cast_ne_zero.mpr hrD
    have : (rN : ℚ) = (m : ℚ) * (rD : ℚ) := by
      rw [← div_eq_iff hrDQ, hval]
      exact hsum
    exact_mod_cast this
  unfold findConstantTerm
  rw [if_neg hne, List.range_eq_range', hloop]
  exact final_checks_ok hrD hZ _ _

/-- With distinct x-values and the Lagrange sum at `x0` equal to an integer
`m`, `evaluateAt` succeeds and returns `m`. -/
theorem evaluateAt_ok_of_int {x0 : Int} {pts : List Point}
    (hx : (pts.map Point.x).Nodup) {m : ℤ}
    (hsum : lagSum (x0 : ℚ) pts = (m : ℚ)) :
    evaluateAt x0 pts = .ok m := by
  by_cases hlen : pts.length = 0
  · obtain rfl : pts = [] := List.length_eq_zero.mp hlen
    have hm : (m : ℚ) = 0 := by
      rw [← hsum]
      exact lagSum_nil _
    have hm0 : m = 0 := by exact_mod_cast hm
    unfold evaluateAt
    rw [hm0]
    rfl
  · obtain ⟨rN, rD, hloop, hrD, hval⟩ :=
      sumLoop_ok x0 pts "Duplicate x values encountered" hx
        pts.length 0 0 1 (by omega) one_ne_zero (by simp [lagSumUpto])
    rw [Nat.zero_add, lagSumUpto_eq_lagSum _ _ _ (le_refl _)] at hval
    have hZ : rN = m * rD := by
      have hrDQ : (rD : ℚ) ≠ 0 := Int.cast_ne_zero.mpr hrD
      have : (rN : ℚ) = (m : ℚ) * (rD : ℚ) := by
        rw [← div_eq_iff hrDQ, hval, hsum]
      exact_mod_cast this
    unfold evaluateAt
    rw [if_neg hlen, List.range_eq_range', hloop]
    exact final_checks_ok hrD hZ _ _

/-- Conversely: whenever `evaluateAt` returns a value on distinct-x points,
that value is exactly the rational Lagrange sum. -/
theorem evaluateAt_ok_val {x0 : Int} {pts : List Point}
    (hx : (pts.map Point.x).Nodup) {z : ℤ}
    (h : evaluateAt x0 pts = .ok z) :
    (z : ℚ) = lagSum (x0 : ℚ) pts := by
  by_cases hlen : pts.length = 0
  · obtain rfl : pts = [] := List.length_eq_zero.mp hlen
    have hz : z = 0 := (Except.ok.inj h).symm
    rw [hz, lagSum_nil]
    rfl
  · obtain ⟨rN, rD, hloop, hrD, hval⟩ :=
      sumLoop_ok x0 pts "Duplicate x values encountered" hx
        pts.length 0 0 1 (by omega) one_ne_zero (by simp [lagSumUpto])
    rw [Nat.zero_add, lagSumUpto_eq_lagSum _ _ _ (le_refl _)] at hval
    unfold evaluateAt at h
    rw [if_neg hlen, List.range_eq_range', hloop] at h
    have hZ : rN = z * rD := final_checks_val hrD _ _ h
    rw [← hval, hZ]
    have hrDQ : (rD : ℚ) ≠ 0 := Int.cast_ne_zero.mpr hrD
    push_cast
    rw [mul_div_assoc, div_self hrDQ, mul_one]

/-! ## Connection with Mathlib's Lagrange interpolation -/

/-- The interpolating polynomial (over `ℚ`) of the embedded points. -/
noncomputable def interpQ (pts : List Point) : Polynomial ℚ :=
  Lagrange.interpolate Finset.univ (nodeX pts) (nodeY pts)

theorem lagSum_eq_eval (x0 : ℚ) (pts : List Point) :
    lagSum x0 pts = (interpQ pts).eval x0 := by
  unfold interpQ lagSum
  rw [Lagrange.interpolate_apply, Polynomial.eval_finset_sum]
  refine Finset.sum_congr rfl fun i _ => ?_
  rw [Polynomial.eval_mul, Polynomial.eval_C]
  unfold Lagrange.basis
  rw [Polynomial.eval_prod]
  have hbd : ∀ j, Polynomial.eval x0 (Lagrange.basisDivisor (nodeX pts i) (nodeX pts j))
      = (nodeX pts i - nodeX pts j)⁻¹ * (x0 - nodeX pts j) := by
    intro j
    unfold Lagrange.basisDivisor
    rw [Polynomial.eval_mul, Polynomial.eval_C, Polynomial.eval_sub,
      Polynomial.eval_X, Polynomial.eval_C]
  rw [Finset.prod_congr rfl (fun j _ => hbd j), Finset.prod_mul_distrib,
    Finset.prod_inv_distrib]
  unfold lagTerm lagTermNum lagTermDen
  ring

theorem nodeX_injOn {pts : List Point} (hx : (pts.map Point.x).Nodup) :
    Set.InjOn (nodeX pts) ↑(Finset.univ : Finset (Fin pts.length)) :=
  fun i _ j _ h => nodeX_injective hx h

theorem card_univ_fin_length (pts : List Point) :
    (Finset.univ : Finset (Fin pts.length)).card = pts.length := by
  rw [Finset.card_univ, Fintype.card_fin]

/-- At a node, the interpolation takes the node's value. -/
theorem interpQ_eval_node {pts : List Point} (hx : (pts.map Point.x).Nodup)
    (i : Fin pts.length) : (interpQ pts).eval (nodeX pts i) = nodeY pts i :=
  Lagrange.eval_interpolate_at_node (nodeY pts) (nodeX_injOn hx) (Finset.mem_univ i)

theorem interpQ_degree_lt {pts : List Point} (hx : (pts.map Point.x).Nodup) :
    (interpQ pts).degree < (pts.length : WithBot Nat) := by
  have h := Lagrange.degree_interpolate_lt (nodeY pts) (nodeX_injOn hx)
  rw [card_univ_fin_length] at h
  exact h

/-- If all points lie on a rational polynomial of degree below the point
count, the Lagrange sum evaluates that polynomial. -/
theorem lagSum_eq_evalP {pts : List Point} (hx : (pts.map Point.x).Nodup)
    (P : Polynomial ℚ) (hdeg : P.degree < (pts.length : WithBot Nat))
    (hon : ∀ j : Fin pts.length, nodeY pts j = P.eval (nodeX pts j)) (x0 : ℚ) :
    lagSum x0 pts = P.eval x0 := by
  have hP := Lagrange.eq_interpolate (nodeX_injOn hx)
    (by rw [card_univ_fin_length]; exact hdeg)
  have hr : (fun i => P.eval (nodeX pts i)) = nodeY pts := by
    funext j
    rw [← hon j]
  rw [lagSum_eq_eval]
  unfold interpQ
  rw [← hr, ← hP]

/-- Integer-polynomial version: points sampled from `P : ℤ[X]` with degree
below the point count make the Lagrange sum evaluate `P` (cast to `ℚ`). -/
theorem lagSum_eq_evalZ {pts : List Point} (hx : (pts.map Point.x).Nodup)
    (P : Polynomial ℤ) (hdeg : P.natDegree < pts.length)
    (hon : ∀ p ∈ pts, p.y = P.eval p.x) (x0 : ℤ) :
    lagSum (x0 : ℚ) pts = ((P.eval x0 : ℤ) : ℚ) := by
  have hdegQ : (P.map (Int.castRingHom ℚ)).degree < (pts.length : WithBot Nat) := by
    rw [Polynomial.degree_map_eq_of_injective Int.cast_injective]
    calc P.degree ≤ (P.natDegree : WithBot Nat) := Polynomial.degree_le_natDegree
      _ < (pts.length : WithBot Nat) := by exact_mod_cast hdeg
  have hon' : ∀ j : Fin pts.length,
      nodeY pts j = (P.map (Int.castRingHom ℚ)).eval (nodeX pts j) := by
    intro j
    unfold nodeY nodeX
    rw [Polynomial.eval_intCast_map]
    have := hon (pts.get j) (List.get_mem pts j.val j.isLt)
    rw [this]
    rfl
  rw [lagSum_eq_evalP hx (P.map (Int.castRingHom ℚ)) hdegQ hon' (x0 : ℚ),
    Polynomial.eval_intCast_map]
  rfl

/-! ## Structural lemmas about verification and the pipeline -/

theorem verifyAllPoints_ok_true {sel : List Point} :
    ∀ {l : List Point}, verifyAllPoints sel l = .ok true →
      ∀ p ∈ l, evaluateAt p.x sel = .ok p.y := by
  intro l
  induction l with
  | nil => intro _ p hp; exact absurd hp (List.not_mem_nil p)
  | cons q rest ih =>
    intro h p hp
    cases heval : evaluateAt q.x sel with
    | error e =>
      simp only [verifyAllPoints, heval] at h
      exact Except.noConfusion h
    | ok val =>
      simp only [verifyAllPoints, heval] at h
      by_cases hv : val = q.y
      · rw [if_pos hv] at h
        rcases List.mem_cons.mp hp with rfl | hmem
        · rw [heval, hv]
        · exact ih h p hmem
      · rw [if_neg hv] at h
        exact absurd (Except.ok.inj h) (by simp)

theorem verifyAllPoints_all {sel : List Point} :
    ∀ {l : List Point}, (∀ p ∈ l, evaluateAt p.x sel = .ok p.y) →
      verifyAllPoints sel l = .ok true := by
  intro l
  induction l with
  | nil => intro _; rfl
  | cons q rest ih =>
    intro h
    have hq : evaluateAt q.x sel = .ok q.y := h q (List.mem_cons_self q rest)
    simp only [verifyAllPoints, hq]
    rw [if_pos trivial]
    exact ih fun p hp => h p (List.mem_cons_of_mem q hp)

theorem solvePoints_ok_intro {k : Int} {pts : List Point}
    (hlen : ¬ ((pts.length : Int) < k))
    (hdup : ¬ ((sliceZeroTo (sortByX pts) k).map Point.x).dedup.length
      ≠ (sliceZeroTo (sortByX pts) k).length)
    {c : Int} (hc : findConstantTerm (sliceZeroTo (sortByX pts) k) = .ok c)
    (hv : verifyAllPoints (sliceZeroTo (sortByX pts) k) (sortByX pts) = .ok true) :
    solvePoints k pts = .ok ⟨c, sliceZeroTo (sortByX pts) k, sortByX pts⟩ := by
  simp only [solvePoints]
  rw [if_neg hlen, if_neg hdup, hc, hv]
  rfl

theorem solvePoints_ok_elim {k : Int} {pts : List Point} {r : SolveResult}
    (h : solvePoints k pts = .ok r) :
    r.selectedPoints = sliceZeroTo (sortByX pts) k ∧ r.allPoints = sortByX pts ∧
      findConstantTerm (sliceZeroTo (sortByX pts) k) = .ok r.constantTerm ∧
      verifyAllPoints (sliceZeroTo (sortByX pts) k) (sortByX pts) = .ok true := by
  simp only [solvePoints] at h
  by_cases hlen : (pts.length : Int) < k
  · rw [if_pos hlen] at h
    exact absurd h (fun hh => Except.noConfusion hh)
  rw [if_neg hlen] at h
  by_cases hdup : ((sliceZeroTo (sortByX pts) k).map Point.x).dedup.length
      ≠ (sliceZeroTo (sortByX pts) k).length
  · rw [if_pos hdup] at h
    exact absurd h (fun hh => Except.noConfusion hh)
  rw [if_neg hdup] at h
  cases hc : findConstantTerm (sliceZeroTo (sortByX pts) k) with
  | error e =>
    rw [hc] at h
    exact absurd h (fun hh => Except.noConfusion hh)
  | ok c =>
    rw [hc] at h
    cases hv : verifyAllPoints (sliceZeroTo (sortByX pts) k) (sortByX pts) with
    | error e =>
      rw [hv] at h
      exact absurd h (fun hh => Except.noConfusion hh)
    | ok b =>
      rw [hv] at h
      cases b with
      | false =>
        exact absurd h (fun hh => Except.noConfusion hh)
      | true =>
        have h2 : Except.ok (⟨c, sliceZeroTo (sortByX pts) k, sortByX pts⟩ : SolveResult)
            = Except.ok r := h
        have hr := Except.ok.inj h2
        rw [← hr]
        exact ⟨rfl, rfl, rfl, rfl⟩

theorem solve_ok_elim {input : Input} {r : SolveResult} (h : solve input = .ok r) :
    ∃ keys : KeysObj, ∃ n k : Int, ∃ pts : List Point,
      input.keys = some keys ∧ keys.n = some n ∧ keys.k = some k ∧
      decodePoints input.entries = .ok pts ∧ solvePoints k pts = .ok r := by
  obtain ⟨keysOpt, entries⟩ := input
  cases keysOpt with
  | none => exact Except.noConfusion h
  | some keys =>
    obtain ⟨nOpt, kOpt⟩ := keys
    cases nOpt with
    | none => exact Except.noConfusion h
    | some n =>
      cases kOpt with
      | none => exact Except.noConfusion h
      | some k =>
        have h2 : (match decodePoints entries with
            | .error e => (.error e : Except String SolveResult)
            | .ok points => solvePoints k points) = .ok r := h
        cases hdec : decodePoints entries with
        | error e =>
          rw [hdec] at h2
          exact Except.noConfusion h2
        | ok pts =>
          rw [hdec] at h2
          exact ⟨⟨some n, some k⟩, n, k, pts, rfl, rfl, rfl, rfl, h2⟩

/-! ## Sorting and selection lemmas -/

theorem sortByX_perm (pts : List Point) : (sortByX pts).Perm pts :=
  List.perm_insertionSort _ pts

theorem sortByX_length (pts : List Point) : (sortByX pts).length = pts.length :=
  (sortByX_perm pts).length_eq

theorem sortByX_map_nodup {pts : List Point} (hx : (pts.map Point.x).Nodup) :
    ((sortByX pts).map Point.x).Nodup :=
  ((sortByX_perm pts).map Point.x).nodup_iff.mpr hx

theorem sortByX_mem {pts : List Point} {p : Point} (hp : p ∈ sortByX pts) : p ∈ pts :=
  (sortByX_perm pts).mem_iff.mp hp

theorem sortByX_mem_rev {pts : List Point} {p : Point} (hp : p ∈ pts) : p ∈ sortByX pts :=
  (sortByX_perm pts).mem_iff.mpr hp

theorem sliceZeroTo_natCast (l : List Point) (kN : Nat) :
    sliceZeroTo l (kN : Int) = l.take kN := by
  unfold sliceZeroTo
  rw [if_neg (not_lt.mpr (Int.natCast_nonneg kN)), Int.toNat_natCast]

theorem dedup_check_of_nodup {l : List Point} (h : (l.map Point.x).Nodup) :
    ¬ ((l.map Point.x).dedup.length ≠ l.length) := by
  have hd : (l.map Point.x).dedup = l.map Point.x := List.dedup_eq_self.mpr h
  exact fun hc => hc (by rw [hd, List.length_map])

theorem take_map_nodup {l : List Point} (hx : (l.map Point.x).Nodup) (n : Nat) :
    ((l.take n).map Point.x).Nodup :=
  ((List.take_sublist n l).map Point.x).nodup hx

theorem solve_eq_solvePoints {n k : Int} {es : List Entry} {pts : List Point}
    (hdec : decodePoints es = .ok pts) :
    solve ⟨some ⟨some n, some k⟩, es⟩ = solvePoints k pts := by
  show (match decodePoints es with
    | .error e => (.error e : Except String SolveResult)
    | .ok points => solvePoints k points) = solvePoints k pts
  rw [hdec]

/-! ## Claim theorems -/

/-- C1: For every polynomial `P` with integer coefficients of degree `d`,
and every dataset obtained by sampling `P` at pairwise-distinct integer
x-values (the `d+1` interpolation points plus any appended extra sample
points of the same `P`), running `solve` with `k = d + 1` succeeds and
returns `P(0)` as the constant term — in particular the verification
stage passes with the extra points present. -/
theorem C1_pipeline_exact_on_polynomial_samples (P : Polynomial ℤ)
    (input : Input) (n k : Int) (pts : List Point)
    (hkeys : input.keys = some ⟨some n, some k⟩)
    (hdec : decodePoints input.entries = .ok pts)
    (hx : (pts.map Point.x).Nodup)
    (hon : ∀ p ∈ pts, p.y = P.eval p.x)
    (hkval : k = ((P.natDegree + 1 : ℕ) : ℤ))
    (hk : P.natDegree + 1 ≤ pts.length) :
    ∃ r : SolveResult, solve input = .ok r ∧ r.constantTerm = P.eval 0 := by
  obtain ⟨keysOpt, entries⟩ := input
  have hkeys' : keysOpt = some ⟨some n, some k⟩ := hkeys
  subst hkeys'
  subst hkval
  have hsolve :=
    @solve_eq_solvePoints n ((P.natDegree + 1 : ℕ) : ℤ) entries pts hdec
  have hslice : sliceZeroTo (sortByX pts) ((P.natDegree + 1 : ℕ) : ℤ)
      = (sortByX pts).take (P.natDegree + 1) := sliceZeroTo_natCast _ _
  have hsortnodup := sortByX_map_nodup hx
  have hselnodup := take_map_nodup hsortnodup (P.natDegree + 1)
  have hsellen : ((sortByX pts).take (P.natDegree + 1)).length = P.natDegree + 1 := by
    rw [List.length_take, sortByX_length]
    exact min_eq_left hk
  have hselon : ∀ p ∈ (sortByX pts).take (P.natDegree + 1), p.y = P.eval p.x :=
    fun p hp => hon p (sortByX_mem (List.take_subset _ _ hp))
  have hdeg : P.natDegree < ((sortByX pts).take (P.natDegree + 1)).length := by
    rw [hsellen]
    omega
  have hne : ¬ ((sortByX pts).take (P.natDegree + 1)).length = 0 := by
    rw [hsellen]
    omega
  have hfct : findConstantTerm ((sortByX pts).take (P.natDegree + 1)) = .ok (P.eval 0) :=
    findConstantTerm_ok_of_int hselnodup hne
      (lagSum_eq_evalZ hselnodup P hdeg hselon 0)
  have hverify : verifyAllPoints ((sortByX pts).take (P.natDegree + 1)) (sortByX pts)
      = .ok true := by
    apply verifyAllPoints_all
    intro p hp
    have hs := lagSum_eq_evalZ hselnodup P hdeg hselon p.x
    rw [hon p (sortByX_mem hp)]
    exact evaluateAt_ok_of_int hselnodup hs
  have hlenchk : ¬ ((pts.length : Int) < ((P.natDegree + 1 : ℕ) : ℤ)) := by
    rw [not_lt]
    exact_mod_cast hk
  refine ⟨⟨P.eval 0, sliceZeroTo (sortByX pts) ((P.natDegree + 1 : ℕ) : ℤ), sortByX pts⟩,
    ?_, rfl⟩
  rw [hsolve]
  apply solvePoints_ok_intro hlenchk
  · rw [hslice]
    exact dedup_check_of_nodup hselnodup
  · rw [hslice]
    exact hfct
  · rw [hslice]
    exact hverify

/-- Witness for C1 at a concrete instance: the constant polynomial `P = 5`
(degree 0), one sample point `(2, 5)` encoded as `"5"` in base 10,
`k = 1`. -/
theorem C1_witness : ∃ r : SolveResult,
    solve ⟨some ⟨some 1, some 1⟩, [⟨2, 10, "5"⟩]⟩ = .ok r ∧ r.constantTerm = 5 := by
  have h := C1_pipeline_exact_on_polynomial_samples (Polynomial.C 5)
    ⟨some ⟨some 1, some 1⟩, [⟨2, 10, "5"⟩]⟩ 1 1 [⟨2, 5⟩] rfl (by decide)
    (by decide)
    (fun p hp => by
      rw [List.mem_singleton] at hp
      subst hp
      simp)
    (by simp)
    (by simp)
  simpa using h

/-! ## Helper lemmas for the tampering analysis -/

theorem set_get_self {α : Type} : ∀ (l : List α) (n : Nat) (h : n < l.length),
    l.set n (l.get ⟨n, h⟩) = l := by
  intro l
  induction l with
  | nil => intro n h; simp at h
  | cons p rest ih =>
    intro n h
    cases n with
    | zero => rfl
    | succ n =>
      have h' : n < rest.length := Nat.lt_of_succ_lt_succ h
      show p :: rest.set n (rest.get ⟨n, h'⟩) = p :: rest
      rw [ih n h']

theorem eq_of_mem_of_map_nodup {l : List Point} (h : (l.map Point.x).Nodup)
    {p1 p2 : Point} (h1 : p1 ∈ l) (h2 : p2 ∈ l) (hxx : p1.x = p2.x) : p1 = p2 := by
  obtain ⟨i, hi⟩ := List.mem_iff_get.mp h1
  obtain ⟨j, hj⟩ := List.mem_iff_get.mp h2
  have hinj := List.nodup_iff_injective_get.mp h
  have hlen : (l.map Point.x).length = l.length := List.length_map _ _
  have hgi : (l.map Point.x).get ⟨i.val, by rw [hlen]; exact i.isLt⟩ = p1.x := by
    simp [List.get_eq_getElem]
    rw [← hi]
    simp [List.get_eq_getElem]
  have hgj : (l.map Point.x).get ⟨j.val, by rw [hlen]; exact j.isLt⟩ = p2.x := by
    simp [List.get_eq_getElem]
    rw [← hj]
    simp [List.get_eq_getElem]
  have hij := hinj (hgi.trans (hxx.trans hgj.symm))
  have hvij := congrArg Fin.val hij
  rw [← hi, ← hj]
  congr 1
  exact Fin.ext hvij

theorem interpQ_eval_mem {sel : List Point} (h : (sel.map Point.x).Nodup)
    {s0 : Point} (hm : s0 ∈ sel) :
    (interpQ sel).eval ((s0.x : ℤ) : ℚ) = ((s0.y : ℤ) : ℚ) := by
  obtain ⟨j, hj⟩ := List.mem_iff_get.mp hm
  have hnode := interpQ_eval_node h j
  unfold nodeX nodeY at hnode
  rw [hj] at hnode
  exact hnode

/-- Tampering a single y-value of a dataset sampled (with strictly more
points than `k`) from an integer polynomial of degree `< k` makes the
point-level pipeline fail: it can never return a result. -/
theorem solvePoints_tamper_fails (P : Polynomial ℤ) (kN : Nat)
    (pts : List Point) (t : Nat) (ht : t < pts.length) (y' : Int)
    (hx : (pts.map Point.x).Nodup)
    (hon : ∀ p ∈ pts, p.y = P.eval p.x)
    (hdeg : P.natDegree < kN)
    (hklen : kN < pts.length)
    (hy : y' ≠ (pts.get ⟨t, ht⟩).y) :
    ∀ r : SolveResult,
      solvePoints ((kN : Nat) : Int) (pts.set t ⟨(pts.get ⟨t, ht⟩).x, y'⟩) ≠ .ok r := by
  intro r hok
  set q : Point := ⟨(pts.get ⟨t, ht⟩).x, y'⟩ with hq
  set pts' : List Point := pts.set t q with hpts'
  have hlen' : pts'.length = pts.length := List.length_set pts t q
  have hmapx : pts'.map Point.x = pts.map Point.x := by
    rw [hpts', List.map_set]
    have hqx : Point.x q = (pts.map Point.x).get ⟨t, by rw [List.length_map]; exact ht⟩ := by
      simp [hq, List.get_eq_getElem]
    rw [hqx, set_get_self]
  have hx' : (pts'.map Point.x).Nodup := by rw [hmapx]; exact hx
  have hq_mem' : q ∈ pts' := by rw [hpts']; exact List.mem_set pts t ht q
  have hmem_cases : ∀ p ∈ pts', p = q ∨ p ∈ pts := by
    intro p hp
    rw [hpts'] at hp
    rcases List.mem_or_eq_of_mem_set hp with h1 | h1
    · exact .inr h1
    · exact .inl h1
  have hyq : P.eval q.x = (pts.get ⟨t, ht⟩).y :=
    (hon (pts.get ⟨t, ht⟩) (List.get_mem pts t ht)).symm
  obtain ⟨_, _, hfct, hv⟩ := solvePoints_ok_elim hok
  have hslice : sliceZeroTo (sortByX pts') ((kN : ℕ) : ℤ) = (sortByX pts').take kN :=
    sliceZeroTo_natCast _ _
  rw [hslice] at hfct hv
  have hsortnodup : ((sortByX pts').map Point.x).Nodup := sortByX_map_nodup hx'
  have hsel'nodup : (((sortByX pts').take kN).map Point.x).Nodup :=
    take_map_nodup hsortnodup kN
  have hsortlen : (sortByX pts').length = pts.length := by rw [sortByX_length, hlen']
  have hsel'len : ((sortByX pts').take kN).length = kN := by
    rw [List.length_take, hsortlen]
    exact min_eq_left (le_of_lt hklen)
  have hsel'sub : ∀ p ∈ (sortByX pts').take kN, p ∈ pts' :=
    fun p hp => sortByX_mem (List.take_subset _ _ hp)
  have hallpts := verifyAllPoints_ok_true hv
  by_cases hqsel : q ∈ (sortByX pts').take kN
  · -- Case B: the tampered point was selected.
    have hdroplen : 0 < ((sortByX pts').drop kN).length := by
      rw [List.length_drop, hsortlen]
      omega
    obtain ⟨pstar, hpstar⟩ := List.exists_mem_of_length_pos hdroplen
    have hpstar_sorted : pstar ∈ sortByX pts' := List.drop_subset _ _ hpstar
    have hsplit : (sortByX pts').map Point.x
        = ((sortByX pts').take kN).map Point.x ++ ((sortByX pts').drop kN).map Point.x := by
      rw [← List.map_append, List.take_append_drop]
    have hdisj := (List.nodup_append.mp (by rw [← hsplit]; exact hsortnodup)).2.2
    have hpstar_x_notin : pstar.x ∉ ((sortByX pts').take kN).map Point.x := by
      intro hc
      exact hdisj hc (List.mem_map_of_mem Point.x hpstar)
    have hpstar_ne_q : pstar ≠ q := by
      intro hc
      apply hpstar_x_notin
      rw [hc]
      exact List.mem_map_of_mem Point.x hqsel
    have hpstar_pts : pstar ∈ pts := by
      rcases hmem_cases pstar (sortByX_mem hpstar_sorted) with h1 | h1
      · exact absurd h1 hpstar_ne_q
      · exact h1
    have hpstar_on : pstar.y = P.eval pstar.x := hon pstar hpstar_pts
    have heval_p := hallpts pstar hpstar_sorted
    have hzval := evaluateAt_ok_val hsel'nodup heval_p
    rw [lagSum_eq_eval] at hzval
    have hcastnodup : ((((sortByX pts').take kN).map Point.x).map
        (fun z : ℤ => (z : ℚ))).Nodup := hsel'nodup.map Int.cast_injective
    have hqx_mem : ((q.x : ℤ) : ℚ) ∈ (((sortByX pts').take kN).map Point.x).map
        (fun z : ℤ => (z : ℚ)) :=
      List.mem_map_of_mem _ (List.mem_map_of_mem Point.x hqsel)
    have hqx_memF : ((q.x : ℤ) : ℚ) ∈ ((((sortByX pts').take kN).map Point.x).map
        (fun z : ℤ => (z : ℚ))).toFinset := List.mem_toFinset.mpr hqx_mem
    have hcard_list : ((((sortByX pts').take kN).map Point.x).map
        (fun z : ℤ => (z : ℚ))).toFinset.card = kN := by
      rw [List.toFinset_card_of_nodup hcastnodup, List.length_map, List.length_map, hsel'len]
    have hpstar_notinF : ((pstar.x : ℤ) : ℚ) ∉ (((((sortByX pts').take kN).map Point.x).map
        (fun z : ℤ => (z : ℚ))).toFinset.erase ((q.x : ℤ) : ℚ)) := by
      intro hc
      have hc2 := Finset.mem_of_mem_erase hc
      rw [List.mem_toFinset] at hc2
      obtain ⟨z, hz1, hz2⟩ := List.mem_map.mp hc2
      have hzz : z = pstar.x := Int.cast_injective hz2
      rw [hzz] at hz1
      exact hpstar_x_notin hz1
    have hScard : (insert ((pstar.x : ℤ) : ℚ) (((((sortByX pts').take kN).map Point.x).map
        (fun z : ℤ => (z : ℚ))).toFinset.erase ((q.x : ℤ) : ℚ))).card = kN := by
      rw [Finset.card_insert_of_not_mem hpstar_notinF,
        Finset.card_erase_of_mem hqx_memF, hcard_list]
      omega
    have hQdeg : (interpQ ((sortByX pts').take kN)).degree
        < ((insert ((pstar.x : ℤ) : ℚ) (((((sortByX pts').take kN).map Point.x).map
          (fun z : ℤ => (z : ℚ))).toFinset.erase ((q.x : ℤ) : ℚ))).card : WithBot ℕ) := by
      rw [hScard]
      have h3 := interpQ_degree_lt hsel'nodup
      rw [hsel'len] at h3
      exact h3
    have hPQdeg : (P.map (Int.castRingHom ℚ)).degree
        < ((insert ((pstar.x : ℤ) : ℚ) (((((sortByX pts').take kN).map Point.x).map
          (fun z : ℤ => (z : ℚ))).toFinset.erase ((q.x : ℤ) : ℚ))).card : WithBot ℕ) := by
      rw [hScard, Polynomial.degree_map_eq_of_injective Int.cast_injective]
      calc P.degree ≤ (P.natDegree : WithBot ℕ) := Polynomial.degree_le_natDegree
        _ < (kN : WithBot ℕ) := by exact_mod_cast hdeg
    have hagree : ∀ x ∈ insert ((pstar.x : ℤ) : ℚ) (((((sortByX pts').take kN).map Point.x).map
        (fun z : ℤ => (z : ℚ))).toFinset.erase ((q.x : ℤ) : ℚ)),
        (P.map (Int.castRingHom ℚ)).eval x = (interpQ ((sortByX pts').take kN)).eval x := by
      intro x hxS
      rw [Finset.mem_insert] at hxS
      rcases hxS with rfl | hxe
      · rw [Polynomial.eval_intCast_map, Int.cast_id, ← hpstar_on, ← hzval]
        rfl
      · have hxe' := Finset.mem_of_mem_erase hxe
        have hxne := Finset.ne_of_mem_erase hxe
        rw [List.mem_toFinset] at hxe'
        obtain ⟨z, hz1, hz2⟩ := List.mem_map.mp hxe'
        obtain ⟨s0, hs01, hs02⟩ := List.mem_map.mp hz1
        subst hz2
        subst hs02
        have hs0_ne_q : s0 ≠ q := by
          intro hc
          apply hxne
          rw [hc]
        have hs0_pts : s0 ∈ pts := by
          rcases hmem_cases s0 (hsel'sub s0 hs01) with h1 | h1
          · exact absurd h1 hs0_ne_q
          · exact h1
        have hs0_on : s0.y = P.eval s0.x := hon s0 hs0_pts
        rw [Polynomial.eval_intCast_map, Int.cast_id, interpQ_eval_mem hsel'nodup hs01, ← hs0_on]
        rfl
    have hPQeqQ := Polynomial.eq_of_degrees_lt_of_eval_finset_eq
      (insert ((pstar.x : ℤ) : ℚ) (((((sortByX pts').take kN).map Point.x).map
        (fun z : ℤ => (z : ℚ))).toFinset.erase ((q.x : ℤ) : ℚ)))
      hPQdeg hQdeg hagree
    have h1 : (P.map (Int.castRingHom ℚ)).eval ((q.x : ℤ) : ℚ)
        = (((pts.get ⟨t, ht⟩).y : ℤ) : ℚ) := by
      rw [Polynomial.eval_intCast_map, Int.cast_id, hyq]
      rfl
    have h2 : (interpQ ((sortByX pts').take kN)).eval ((q.x : ℤ) : ℚ) = ((y' : ℤ) : ℚ) :=
      interpQ_eval_mem hsel'nodup hqsel
    rw [hPQeqQ, h2] at h1
    have hYY : y' = (pts.get ⟨t, ht⟩).y := by exact_mod_cast h1
    exact hy hYY
  · -- Case A: the tampered point was not selected.
    have hsel'on : ∀ p ∈ (sortByX pts').take kN, p.y = P.eval p.x := by
      intro p hp
      rcases hmem_cases p (hsel'sub p hp) with rfl | hmem
      · exact absurd hp hqsel
      · exact hon p hmem
    have hdeg' : P.natDegree < ((sortByX pts').take kN).length := by
      rw [hsel'len]
      exact hdeg
    have hs := lagSum_eq_evalZ hsel'nodup P hdeg' hsel'on q.x
    have heval := evaluateAt_ok_of_int hsel'nodup hs
    have hq_sorted : q ∈ sortByX pts' := sortByX_mem_rev hq_mem'
    have heval2 := hallpts q hq_sorted
    rw [heval] at heval2
    have h4 : P.eval q.x = q.y := Except.ok.inj heval2
    rw [hyq] at h4
    exact hy h4.symm

/-- C2 (amended): a constant term is never returned unless evaluating the
selected-subset polynomial reproduces every one of the n decoded points'
y-values exactly; and tampering a single y-value of a dataset sampled from
an integer polynomial of degree `< k` while leaving `k` unchanged makes
the pipeline fail whenever the dataset has more than `k` points (with
`n = k` the tampered dataset can itself be consistent and `solve` may
succeed with a different constant term — see the counterexample). -/
theorem C2_no_silent_wrong_constant :
    (∀ (input : Input) (r : SolveResult), solve input = .ok r →
      ∀ p ∈ r.allPoints, evaluateAt p.x r.selectedPoints = .ok p.y) ∧
    (∀ (P : Polynomial ℤ) (kN : Nat) (pts : List Point) (t : Nat)
      (ht : t < pts.length) (y' : Int),
      (pts.map Point.x).Nodup → (∀ p ∈ pts, p.y = P.eval p.x) →
      P.natDegree < kN → kN < pts.length → y' ≠ (pts.get ⟨t, ht⟩).y →
      ∀ r : SolveResult,
        solvePoints ((kN : Nat) : Int) (pts.set t ⟨(pts.get ⟨t, ht⟩).x, y'⟩) ≠ .ok r) := by
  constructor
  · intro input r h p hp
    obtain ⟨keys, n, k, pts, _, _, _, _, hsp⟩ := solve_ok_elim h
    obtain ⟨hsel, hall, _, hv⟩ := solvePoints_ok_elim hsp
    rw [hall] at hp
    rw [hsel]
    exact verifyAllPoints_ok_true hv p hp
  · intro P kN pts t ht y' hx hon hdeg hklen hy
    exact solvePoints_tamper_fails P kN pts t ht y' hx hon hdeg hklen hy

/-- Counterexample to C2 as stated: the dataset `(1,4),(2,7),(3,12)`
(on `x² + 3`, constant term 3) with `n = k = 3`, tampered at `x = 3`
(y-value `12` re-encoded as `"13"`), makes `solve` SUCCEED with the
silently different constant term 4 instead of failing with
`VerificationFailed`. -/
theorem C2_counterexample :
    solve ⟨some ⟨some 3, some 3⟩, [⟨1, 10, "4"⟩, ⟨2, 2, "111"⟩, ⟨3, 10, "12"⟩]⟩
      = .ok ⟨3, [⟨1, 4⟩, ⟨2, 7⟩, ⟨3, 12⟩], [⟨1, 4⟩, ⟨2, 7⟩, ⟨3, 12⟩]⟩ ∧
    solve ⟨some ⟨some 3, some 3⟩, [⟨1, 10, "4"⟩, ⟨2, 2, "111"⟩, ⟨3, 10, "13"⟩]⟩
      = .ok ⟨4, [⟨1, 4⟩, ⟨2, 7⟩, ⟨3, 13⟩], [⟨1, 4⟩, ⟨2, 7⟩, ⟨3, 13⟩]⟩ := by
  constructor
  · decide
  · decide

/-- Witness for C2: part 1 at the worked four-point example, part 2 at the
constant polynomial `P = 5` sampled at `(1,5),(2,5)` with `k = 1` and the
y-value at `x = 1` tampered to 6. -/
theorem C2_witness :
    evaluateAt 6 [⟨1, 4⟩, ⟨2, 7⟩, ⟨3, 12⟩] = .ok 39 ∧
    ∀ r : SolveResult, solvePoints 1 [⟨1, 6⟩, ⟨2, 5⟩] ≠ .ok r := by
  constructor
  · exact C2_no_silent_wrong_constant.1
      ⟨some ⟨some 4, some 3⟩, [⟨1, 10, "4"⟩, ⟨2, 2, "111"⟩, ⟨3, 10, "12"⟩, ⟨6, 4, "213"⟩]⟩
      ⟨3, [⟨1, 4⟩, ⟨2, 7⟩, ⟨3, 12⟩], [⟨1, 4⟩, ⟨2, 7⟩, ⟨3, 12⟩, ⟨6, 39⟩]⟩
      (by decide) ⟨6, 39⟩ (by decide)
  · have h := C2_no_silent_wrong_constant.2 (Polynomial.C 5) 1 [⟨1, 5⟩, ⟨2, 5⟩] 0
      (by norm_num) 6 (by decide)
      (fun p hp => by fin_cases hp <;> simp)
      (by simp) (by norm_num) (by decide)
    simpa using h

/-- C6: on every dataset on which `solve` succeeds, re-evaluating the
selected-subset polynomial at each selected point's own x reproduces that
point's exact y (the Lagrange interpolation property at the nodes, as
enforced by the pipeline's verification stage, which covers the selected
points because they are among the n points). -/
theorem C6_roundtrip_at_nodes :
    ∀ (input : Input) (r : SolveResult), solve input = .ok r →
      ∀ p ∈ r.selectedPoints, evaluateAt p.x r.selectedPoints = .ok p.y := by
  intro input r h p hp
  obtain ⟨keys, n, k, pts, _, _, _, _, hsp⟩ := solve_ok_elim h
  obtain ⟨hsel, hall, _, hv⟩ := solvePoints_ok_elim hsp
  rw [hsel] at hp
  have hp' : p ∈ sortByX pts := by
    unfold sliceZeroTo at hp
    exact List.take_subset _ _ hp
  rw [hsel]
  exact verifyAllPoints_ok_true hv p hp'

/-- Witness for C6 at the worked example: the selected point `(1, 4)` is
reproduced by evaluation at its own x. -/
theorem C6_witness : evaluateAt 1 [⟨1, 4⟩, ⟨2, 7⟩, ⟨3, 12⟩] = .ok 4 :=
  C6_roundtrip_at_nodes
    ⟨some ⟨some 4, some 3⟩, [⟨1, 10, "4"⟩, ⟨2, 2, "111"⟩, ⟨3, 10, "12"⟩, ⟨6, 4, "213"⟩]⟩
    ⟨3, [⟨1, 4⟩, ⟨2, 7⟩, ⟨3, 12⟩], [⟨1, 4⟩, ⟨2, 7⟩, ⟨3, 12⟩, ⟨6, 39⟩]⟩
    (by decide) ⟨1, 4⟩ (by decide)

/-- C8 (amended): `gcdBig` computes the Euclidean gcd of the absolute
values of its arguments (the loop satisfies the source recurrence, see the
last conjunct); `gcdBig 0 x = |x|`, and `gcdBig 0 0 = 0` (not 1 — the
claimed special case does not exist in the code). -/
theorem C8_gcd_amended :
    (∀ a b : Int, gcdBig a b = (Int.gcd a b : Int)) ∧
    (∀ x : Int, gcdBig 0 x = (x.natAbs : Int)) ∧
    gcdBig 0 0 = 0 ∧
    (∀ a b : Nat, Nat.gcd b a = if b = 0 then a else Nat.gcd (a % b) b) := by
  refine ⟨gcdBig_eq, ?_, by decide, gcdBig_loop_step⟩
  intro x
  rw [gcdBig_eq]
  rw [Int.gcd_zero_left]

/-- Counterexample for C8 as stated: `gcdBig 0 0` is `0`, not `1`. -/
theorem C8_counterexample : gcdBig 0 0 = 0 ∧ gcdBig 0 0 ≠ 1 := by
  constructor
  · decide
  · decide

/-- C9 (amended): `solve` validates that the `keys` object is present and
that `keys.n` / `keys.k` are integers, failing with the corresponding
messages otherwise — but it performs NO positivity check: for any integer
`n` and `k`, including non-positive ones, parsing succeeds and the
pipeline proceeds to decoding and selection. -/
theorem C9_parse_validation_amended :
    (∀ es : List Entry, solve ⟨none, es⟩ = .error "Invalid input JSON: missing keys") ∧
    (∀ (n : Option Int) (es : List Entry),
      solve ⟨some ⟨n, none⟩, es⟩ = .error "keys.n and keys.k must be integers") ∧
    (∀ (k : Option Int) (es : List Entry),
      solve ⟨some ⟨none, k⟩, es⟩ = .error "keys.n and keys.k must be integers") ∧
    (∀ (n k : Int) (es : List Entry) (pts : List Point), decodePoints es = .ok pts →
      solve ⟨some ⟨some n, some k⟩, es⟩ = solvePoints k pts) := by
  refine ⟨fun es => rfl, ?_, ?_, fun n k es pts h => solve_eq_solvePoints h⟩
  · intro n es
    cases n <;> rfl
  · intro k es
    cases k <;> rfl

/-- Counterexample for C9 as stated: the input with `k = 0` (non-positive)
is NOT rejected at the parse stage; it proceeds through decoding and
selection and only fails inside the interpolation stage, with the
empty-selection message rather than any `InvalidCount` parse error. -/
theorem C9_counterexample :
    solve ⟨some ⟨some 1, some 0⟩, [⟨1, 10, "4"⟩]⟩
      = .error "No points provided for interpolation" := by decide

/-- Witness for C9 at a concrete non-positive `k`: parsing passes and the
call reduces to the point-level pipeline. -/
theorem C9_witness :
    solve ⟨some ⟨some 1, some 0⟩, [⟨1, 10, "4"⟩]⟩ = solvePoints 0 [⟨1, 4⟩] :=
  C9_parse_validation_amended.2.2.2 1 0 [⟨1, 10, "4"⟩] [⟨1, 4⟩] (by decide)

/-- C10: on the empty point list the two evaluators disagree — `evaluateAt`
silently returns 0 for every target x, while `findConstantTerm` fails with
the no-points error. -/
theorem C10_empty_list_disagreement :
    (∀ x0 : Int, evaluateAt x0 [] = .ok 0) ∧
    findConstantTerm [] = .error "No points provided for interpolation" :=
  ⟨fun _ => rfl, rfl⟩

/-! ## Positional-notation value (spec side, for C3) -/

/-- The specification's fixed case-sensitive digit alphabet as a total
function, modelled from the spec's mapping table (§4.1):
`'0'..'9' → 0..9`, `'a'..'z' → 10..35`, `'A'..'Z' → 36..61`; characters
outside the alphabet get value 62, which no admissible base allows. -/
def specDigitValue (c : Char) : Int :=
  if 48 ≤ c.toNat ∧ c.toNat ≤ 57 then (c.toNat : Int) - 48
  else if 97 ≤ c.toNat ∧ c.toNat ≤ 122 then 10 + ((c.toNat : Int) - 97)
  else if 65 ≤ c.toNat ∧ c.toNat ≤ 90 then 36 + ((c.toNat : Int) - 65)
  else 62

/-- The standard positional-notation value of a digit string in base `b`:
`Σ_i d_i · b^(n-1-i)`, written independently of the decoder's Horner
loop. -/
def positionalValue (s : String) (b : Int) : Int :=
  ∑ i ∈ Finset.range s.data.length,
    specDigitValue (s.data.getD i ' ') * b ^ (s.data.length - 1 - i)

/-- The embedded digit map agrees with the specification's table wherever
it succeeds. -/
theorem getDigitValue_spec {c : Char} {d : Nat} (h : getDigitValue c = .ok d) :
    specDigitValue c = (d : Int) := by
  simp only [getDigitValue] at h
  unfold specDigitValue
  by_cases h1 : 48 ≤ c.toNat ∧ c.toNat ≤ 57
  · rw [if_pos h1] at h ⊢
    have hd := Except.ok.inj h
    omega
  · rw [if_neg h1] at h ⊢
    by_cases h2 : 97 ≤ c.toNat ∧ c.toNat ≤ 122
    · rw [if_pos h2] at h ⊢
      have hd := Except.ok.inj h
      omega
    · rw [if_neg h2] at h ⊢
      by_cases h3 : 65 ≤ c.toNat ∧ c.toNat ≤ 90
      · rw [if_pos h3] at h ⊢
        have hd := Except.ok.inj h
        omega
      · rw [if_neg h3] at h
        exact Except.noConfusion h

/-- The Horner accumulation loop computes the base-`b` positional value:
running it on digits `l` with accumulator `res` yields
`res·b^|l| + Σ_i d_i·b^(|l|-1-i)`. -/
theorem convLoop_ok {b : Int} :
    ∀ (l : List Char) (res : Int),
      (∀ c ∈ l, ∃ d : Nat, getDigitValue c = .ok d ∧ (d : Int) < b) →
      convLoop b l res = .ok (res * b ^ l.length +
        ∑ i ∈ Finset.range l.length,
          specDigitValue (l.getD i ' ') * b ^ (l.length - 1 - i)) := by
  intro l
  induction l with
  | nil =>
    intro res _
    simp [convLoop]
  | cons c rest ih =>
    intro res hdig
    obtain ⟨d, hd, hdb⟩ := hdig c (List.mem_cons_self c rest)
    simp only [convLoop, hd]
    rw [if_neg (not_le.mpr hdb)]
    rw [ih (res * b + (d : Int)) (fun c' hc' => hdig c' (List.mem_cons_of_mem c hc'))]
    congr 1
    have hsum : ∑ i ∈ Finset.range (c :: rest).length,
        specDigitValue ((c :: rest).getD i ' ') * b ^ ((c :: rest).length - 1 - i)
        = (d : Int) * b ^ rest.length
          + ∑ i ∈ Finset.range rest.length,
              specDigitValue (rest.getD i ' ') * b ^ (rest.length - 1 - i) := by
      rw [show (c :: rest).length = rest.length + 1 from rfl]
      rw [Finset.sum_range_succ']
      have hf0 : specDigitValue ((c :: rest).getD 0 ' ') * b ^ (rest.length + 1 - 1 - 0)
          = (d : Int) * b ^ rest.length := by
        rw [List.getD_cons_zero, getDigitValue_spec hd,
          show rest.length + 1 - 1 - 0 = rest.length from by omega]
      have hfs : (∑ i ∈ Finset.range rest.length,
            specDigitValue ((c :: rest).getD (i + 1) ' ')
              * b ^ (rest.length + 1 - 1 - (i + 1)))
          = ∑ i ∈ Finset.range rest.length,
              specDigitValue (rest.getD i ' ') * b ^ (rest.length - 1 - i) := by
        refine Finset.sum_congr rfl fun i _ => ?_
        rw [List.getD_cons_succ,
          show rest.length + 1 - 1 - (i + 1) = rest.length - 1 - i from by omega]
      rw [hf0, hfs, add_comm]
    rw [hsum]
    rw [show (c :: rest).length = rest.length + 1 from rfl]
    ring

/-- C3: for every non-empty digit string `s` and base `2 ≤ b ≤ 62` whose
characters all have digit values below `b` under the fixed case-sensitive
mapping, the decoder returns the standard positional-notation value of
`s` in base `b`; in particular `decode("1A", 40) = 76`,
`decode("111", 2) = 7` and `decode("213", 4) = 39`. -/
theorem C3_decode_positional :
    (∀ (s : String) (b : Int), ¬ s.length = 0 → 2 ≤ b → b ≤ 62 →
      (∀ c ∈ s.data, ∃ d : Nat, getDigitValue c = .ok d ∧ (d : Int) < b) →
      convertToDecimalBigInt s b = .ok (positionalValue s b)) ∧
    convertToDecimalBigInt "1A" 40 = .ok 76 ∧
    convertToDecimalBigInt "111" 2 = .ok 7 ∧
    convertToDecimalBigInt "213" 4 = .ok 39 := by
  refine ⟨?_, by decide, by decide, by decide⟩
  intro s b hne h2 h62 hdig
  unfold convertToDecimalBigInt
  rw [if_neg (not_not_intro ⟨h2, h62⟩), if_neg hne]
  rw [convLoop_ok s.data 0 hdig]
  unfold positionalValue
  congr 1
  rw [zero_mul, zero_add]

/-- Witness for C3: the general positional-value statement applied to the
concrete string `"21"` in base 4 (value `2·4 + 1 = 9`). -/
theorem C3_witness :
    convertToDecimalBigInt "21" 4 = .ok (positionalValue "21" 4)
      ∧ positionalValue "21" 4 = 9 := by
  constructor
  · refine C3_decode_positional.1 "21" 4 (by decide) (by norm_num) (by norm_num) ?_
    intro c hc
    have hdata : "21".data = ['2', '1'] := rfl
    rw [hdata] at hc
    rcases List.mem_cons.mp hc with rfl | hc2
    · exact ⟨2, by decide, by norm_num⟩
    rcases List.mem_cons.mp hc2 with rfl | hc3
    · exact ⟨1, by decide, by norm_num⟩
    · exact absurd hc3 (List.not_mem_nil c)
  · decide

/-- C4: the selection policy is "stable sort by x ascending, take the
first k" (last conjunct, for every successful run), and on the worked
four-point example the decoded points, selected subset, constant term 3
and successful verification against `(6, 39)` are exactly as the
specification says. -/
theorem C4_end_to_end_example :
    decodePoints [⟨1, 10, "4"⟩, ⟨2, 2, "111"⟩, ⟨3, 10, "12"⟩, ⟨6, 4, "213"⟩]
      = .ok [⟨1, 4⟩, ⟨2, 7⟩, ⟨3, 12⟩, ⟨6, 39⟩] ∧
    solve ⟨some ⟨some 4, some 3⟩, [⟨1, 10, "4"⟩, ⟨2, 2, "111"⟩, ⟨3, 10, "12"⟩, ⟨6, 4, "213"⟩]⟩
      = .ok ⟨3, [⟨1, 4⟩, ⟨2, 7⟩, ⟨3, 12⟩], [⟨1, 4⟩, ⟨2, 7⟩, ⟨3, 12⟩, ⟨6, 39⟩]⟩ ∧
    evaluateAt 6 [⟨1, 4⟩, ⟨2, 7⟩, ⟨3, 12⟩] = .ok 39 ∧
    (∀ (k : Int) (pts : List Point) (r : SolveResult), solvePoints k pts = .ok r →
      r.selectedPoints = sliceZeroTo (sortByX pts) k ∧ r.allPoints = sortByX pts) := by
  refine ⟨by decide, by decide, by decide, ?_⟩
  intro k pts r h
  have he := solvePoints_ok_elim h
  exact ⟨he.1, he.2.1⟩

/-- Witness for C4: the selection-policy conjunct applied to the worked
example's successful run. -/
theorem C4_witness :
    (⟨3, [⟨1, 4⟩, ⟨2, 7⟩, ⟨3, 12⟩], [⟨1, 4⟩, ⟨2, 7⟩, ⟨3, 12⟩, ⟨6, 39⟩]⟩
        : SolveResult).selectedPoints
      = sliceZeroTo (sortByX [⟨1, 4⟩, ⟨2, 7⟩, ⟨3, 12⟩, ⟨6, 39⟩]) 3 :=
  (C4_end_to_end_example.2.2.2 3 [⟨1, 4⟩, ⟨2, 7⟩, ⟨3, 12⟩, ⟨6, 39⟩]
    ⟨3, [⟨1, 4⟩, ⟨2, 7⟩, ⟨3, 12⟩], [⟨1, 4⟩, ⟨2, 7⟩, ⟨3, 12⟩, ⟨6, 39⟩]⟩ (by decide)).1

/-! ## Error-message inequalities for C5 -/

theorem constantTerm_msg_ne_rangeError (s1 s2 : String) :
    ("Constant term is not an integer: " ++ s1 ++ " / " ++ s2)
      ≠ "RangeError: Division by zero" := by
  have h1 := append_head_data "Constant term is not an integer: " 'C'
    "onstant term is not an integer: ".data rfl s1
  have h2 := append_head_data ("Constant term is not an integer: " ++ s1) 'C' _ h1 " / "
  have h3 := append_head_data ("Constant term is not an integer: " ++ s1 ++ " / ") 'C' _ h2 s2
  exact string_ne_of_head h3 rfl (by decide)

theorem nonintegerEval_msg_ne_rangeError (s1 : String) :
    ("Non-integer evaluation at x=" ++ s1) ≠ "RangeError: Division by zero" := by
  have h1 := append_head_data "Non-integer evaluation at x=" 'N'
    "on-integer evaluation at x=".data rfl s1
  exact string_ne_of_head h1 rfl (by decide)

/-- C5: duplicate x-values among the points always make `findConstantTerm`
and `evaluateAt` fail with the duplicate-x error; and no input whatsoever
makes either function attempt a division by zero (in the model, a zero
divisor would surface as the JS `RangeError`, which is never returned). -/
theorem C5_duplicate_x_no_div_zero :
    ∀ (pts : List Point) (x0 : Int),
      (findConstantTerm pts ≠ .error "RangeError: Division by zero" ∧
        evaluateAt x0 pts ≠ .error "RangeError: Division by zero") ∧
      (¬ (pts.map Point.x).Nodup →
        findConstantTerm pts = .error "Duplicate x values encountered (denominator zero)" ∧
        evaluateAt x0 pts = .error "Duplicate x values encountered") := by
  intro pts x0
  constructor
  · constructor
    · by_cases hlen : pts.length = 0
      · unfold findConstantTerm
        rw [if_pos hlen]
        intro hc
        exact absurd (Except.error.inj hc) (by decide)
      · unfold findConstantTerm
        rw [if_neg hlen]
        rcases sumLoop_cases 0 pts "Duplicate x values encountered (denominator zero)"
            (List.range pts.length) 0 1 one_ne_zero with ⟨rN, rD, hloop, hrD⟩ | hloop
        · rw [hloop]
          show (if rD = 0 then
              (Except.error "Internal math error: final denominator zero" : Except String Int)
            else if rN.tmod rD ≠ 0 then
              Except.error ("Constant term is not an integer: " ++ toString rN
                ++ " / " ++ toString rD)
            else Except.ok (rN.tdiv rD)) ≠ Except.error "RangeError: Division by zero"
          rw [if_neg hrD]
          by_cases hmod : rN.tmod rD ≠ 0
          · rw [if_pos hmod]
            intro hc
            exact constantTerm_msg_ne_rangeError _ _ (Except.error.inj hc)
          · rw [if_neg hmod]
            intro hc
            exact Except.noConfusion hc
        · rw [hloop]
          intro hc
          exact absurd (Except.error.inj hc) (by decide)
    · by_cases hlen : pts.length = 0
      · unfold evaluateAt
        rw [if_pos hlen]
        intro hc
        exact Except.noConfusion hc
      · unfold evaluateAt
        rw [if_neg hlen]
        rcases sumLoop_cases x0 pts "Duplicate x values encountered"
            (List.range pts.length) 0 1 one_ne_zero with ⟨rN, rD, hloop, hrD⟩ | hloop
        · rw [hloop]
          show (if rD = 0 then
              (Except.error "Internal math error: denominator zero" : Except String Int)
            else if rN.tmod rD ≠ 0 then
              Except.error ("Non-integer evaluation at x=" ++ toString x0)
            else Except.ok (rN.tdiv rD)) ≠ Except.error "RangeError: Division by zero"
          rw [if_neg hrD]
          by_cases hmod : rN.tmod rD ≠ 0
          · rw [if_pos hmod]
            intro hc
            exact nonintegerEval_msg_ne_rangeError _ (Except.error.inj hc)
          · rw [if_neg hmod]
            intro hc
            exact Except.noConfusion hc
        · rw [hloop]
          intro hc
          exact absurd (Except.error.inj hc) (by decide)
  · intro hdup
    have hlen : ¬ pts.length = 0 := by
      intro h0
      obtain rfl : pts = [] := List.length_eq_zero.mp h0
      exact hdup List.nodup_nil
    constructor
    · obtain ⟨a, ha, haz⟩ := exists_zero_termDen 0 hdup
      have hloop := sumLoop_dup 0 pts "Duplicate x values encountered (denominator zero)"
        (List.range pts.length) 0 1 one_ne_zero ⟨a, List.mem_range.mpr ha, haz⟩
      unfold findConstantTerm
      rw [if_neg hlen, hloop]
    · obtain ⟨a, ha, haz⟩ := exists_zero_termDen x0 hdup
      have hloop := sumLoop_dup x0 pts "Duplicate x values encountered"
        (List.range pts.length) 0 1 one_ne_zero ⟨a, List.mem_range.mpr ha, haz⟩
      unfold evaluateAt
      rw [if_neg hlen, hloop]

/-- Witness for C5 at a concrete duplicate-x list. -/
theorem C5_witness :
    findConstantTerm [⟨1, 1⟩, ⟨1, 2⟩]
        = .error "Duplicate x values encountered (denominator zero)" ∧
    evaluateAt 5 [⟨1, 1⟩, ⟨1, 2⟩] = .error "Duplicate x values encountered" := by
  have h := (C5_duplicate_x_no_div_zero [⟨1, 1⟩, ⟨1, 2⟩] 5).2 (by decide)
  exact h

/-! ## Trace invariant for C7 -/

theorem reduceTraceLoop_inv (x0 : Int) (pts : List Point) :
    ∀ (idxs : List Nat) (sN sD : Int), sD ≠ 0 →
      ∀ st ∈ reduceTraceLoop x0 pts idxs (sN, sD),
        st.2 ≠ 0 ∧ Int.gcd st.1 st.2 = 1 := by
  intro idxs
  induction idxs with
  | nil =>
    intro sN sD _ st hst
    exact absurd hst (List.not_mem_nil st)
  | cons i rest ih =>
    intro sN sD hsD st hst
    simp only [reduceTraceLoop] at hst
    by_cases htD : (termLoop x0 (pts.getD i ⟨0, 0⟩).x (pts.getD i ⟨0, 0⟩).y
        (pts.eraseIdx i)).2 = 0
    · rw [if_pos htD] at hst
      exact absurd hst (List.not_mem_nil st)
    · rw [if_neg htD] at hst
      obtain ⟨n1, d1, hred, hd1, hgcd, _⟩ := @reduceAdd_ok sN sD _ _ hsD htD
      rw [hred] at hst
      rcases List.mem_cons.mp hst with rfl | hst2
      · exact ⟨hd1, hgcd⟩
      · exact ih n1 d1 hd1 st hst2

/-- C7 (amended): after every gcd-reduction step of the running rational
sum in `findConstantTerm` and `evaluateAt`, the running denominator is
nonzero and the fraction is in lowest terms — but the denominator's sign
is NOT normalized (it can be negative; see the counterexample). -/
theorem C7_running_fraction_reduced :
    ∀ (pts : List Point) (x0 : Int) (st : Int × Int),
      (st ∈ findConstantTermTrace pts ∨ st ∈ evaluateAtTrace x0 pts) →
      st.2 ≠ 0 ∧ Int.gcd st.1 st.2 = 1 := by
  intro pts x0 st h
  rcases h with h | h
  · exact reduceTraceLoop_inv 0 pts (List.range pts.length) 0 1 one_ne_zero st h
  · exact reduceTraceLoop_inv x0 pts (List.range pts.length) 0 1 one_ne_zero st h

/-- Counterexample for C7 as stated: running `findConstantTerm` on
`[(0,1), (1,1)]` reaches the running fraction `(-1, -1)` right after a
reduction step — its denominator is negative, so the sign is not folded
into the numerator. -/
theorem C7_counterexample :
    ((-1 : Int), (-1 : Int)) ∈ findConstantTermTrace [⟨0, 1⟩, ⟨1, 1⟩] ∧
      ¬ (0 < (-1 : Int)) := by
  constructor
  · decide
  · decide

/-- Witness for C7 at the concrete trace state `(-1, -1)`. -/
theorem C7_witness : ((-1 : Int) ≠ 0) ∧ Int.gcd (-1) (-1) = 1 :=
  C7_running_fraction_reduced [⟨0, 1⟩, ⟨1, 1⟩] 0 ((-1 : Int), (-1 : Int))
    (Or.inl (by decide))

end PolynomialSolver
